import Mathlib

/-!
Verification of the `decimal` package (src/decimal.go): an arbitrary-precision
fixed-point decimal arithmetic engine.  A `Decimal` pairs an arbitrary-precision
integer coefficient (`math/big.Int`, modelled as `ℤ`) with a 32-bit exponent
(`int32`, modelled as `ℤ` together with explicit wrap-around where Go performs
`int32` arithmetic, and range hypotheses `-2^31 ≤ e < 2^31` in the theorems).

Go specifics that the embedding reproduces faithfully:
* `big.Int.Quo` truncates toward zero: modelled by `Int.tdiv`.
* `big.Int.DivMod` is Euclidean division (`0 ≤ m < |y|`): for the positive
  divisor `10` this is Lean's `/` (`Int.ediv`) and `%` (`Int.emod`).
* `big.Int.Cmp` returns -1, 0 or +1: modelled by `cmpInt`.
* `big.Int.Bit(0) != 0` tests the two's-complement low bit, i.e. oddness:
  modelled by `value % 2 ≠ 0`.
* `rescale` converts both `int32` exponents to `float64`, subtracts, and takes
  `math.Abs`.  An `int32` converts to `float64` exactly; the subtraction is
  rounded to nearest (ties to even), modelled by `f64round` on the exact
  integer difference; `math.Abs` and the cast back to `int64` are exact on the
  integral result.
-/

/-- Wrap-around of Go `int32` arithmetic: the representative of `x` modulo
`2^32` in `[-2^31, 2^31)`. -/
def i32 (x : ℤ) : ℤ := (x + 2 ^ 31) % 2 ^ 32 - 2 ^ 31

/-- IEEE-754 binary64 round-to-nearest, ties-to-even, restricted to natural
numbers (a `float64` has a 53-bit significand, so every `n < 2^53` is exact;
above that, `n` is rounded to the nearest multiple of the unit in the last
place `2^(log2 n - 52)`, ties to the even quotient). -/
def f64roundNat (n : ℕ) : ℕ :=
  if n < 2 ^ 53 then n
  else
    let m := 2 ^ (n.log2 - 52)
    let q := n / m
    let r := n % m
    if 2 * r < m then q * m
    else if m < 2 * r then (q + 1) * m
    else if q % 2 = 0 then q * m else (q + 1) * m

/-- IEEE-754 binary64 round-to-nearest on an exact integer value (the rounding
is symmetric about zero). -/
def f64round (x : ℤ) : ℤ :=
  if x < 0 then -(f64roundNat x.natAbs : ℤ) else (f64roundNat x.natAbs : ℤ)

/-- Model of `big.Int.Cmp`: -1 if `x < y`, 0 if `x = y`, +1 if `x > y`. -/
def cmpInt (x y : ℤ) : ℤ := if x < y then -1 else if x = y then 0 else 1

/-- The exponent difference computed inside `rescale`, exactly as the source
does it: `diff := math.Abs(float64(exp) - float64(d.exp))`, then cast through
`int64` into `big.NewInt` (an `int32` converts to `float64` exactly; the
subtraction is one rounded operation; `math.Abs` and the integral-valued cast
are exact). -/
def rescaleDiff (dexp exp : ℤ) : ℕ := (f64round (exp - dexp)).natAbs

/-- The Go `Decimal` struct: `value *big.Int; exp int32`. -/
structure Decimal where
  value : ℤ
  exp : ℤ
deriving DecidableEq, Repr

/-- Go `func New(value int64, exp int32) *Decimal`. -/
def New (value : ℤ) (exp : ℤ) : Decimal := ⟨value, exp⟩

namespace Decimal

/-- Go `func min(x, y int32) int32`. -/
def min32 (x y : ℤ) : ℤ := if x ≥ y then y else x

/-- Go `func (d *Decimal) rescale(exp int32) *Decimal`.  The Go code computes
`diff := math.Abs(float64(exp) - float64(d.exp))` (exact `int32→float64`
conversions, one rounded subtraction, exact `math.Abs`), copies the
coefficient, forms `10^diff`, and then `Quo`s (truncating division) when
precision decreases, multiplies when it increases. -/
def rescale (d : Decimal) (exp : ℤ) : Decimal :=
  let diff : ℕ := rescaleDiff d.exp exp
  let expScale : ℤ := 10 ^ diff
  if exp > d.exp then ⟨d.value.tdiv expScale, exp⟩
  else if exp < d.exp then ⟨d.value * expScale, exp⟩
  else ⟨d.value, exp⟩

/-- Go `func (d *Decimal) Add(d2 *Decimal) *Decimal`. -/
def Add (d d2 : Decimal) : Decimal :=
  let baseScale := min32 d.exp d2.exp
  let rd := d.rescale baseScale
  let rd2 := d2.rescale baseScale
  ⟨rd.value + rd2.value, baseScale⟩

/-- Go `func (d *Decimal) Sub(d2 *Decimal) *Decimal`. -/
def Sub (d d2 : Decimal) : Decimal :=
  let baseScale := min32 d.exp d2.exp
  let rd := d.rescale baseScale
  let rd2 := d2.rescale baseScale
  ⟨rd.value - rd2.value, baseScale⟩

/-- Go `func (d *Decimal) Mul(d2 *Decimal) *Decimal`.  The exponent sum is formed
in `int64` (exact, since both operands are `int32`); if it exceeds the `int32`
range the Go code panics — modelled by `none`. -/
def Mul (d d2 : Decimal) : Option Decimal :=
  let expInt64 := d.exp + d2.exp
  if expInt64 > 2 ^ 31 - 1 ∨ expInt64 < -(2 ^ 31) then none
  else some ⟨d.value * d2.value, expInt64⟩

/-- Go `func (d *Decimal) Round(places int32) *Decimal`: truncate to `places+1`
digits, add `sign(d) * 5`, Euclidean-DivMod by 10 bumping the exponent, and
add one when the (negative) quotient had a nonzero remainder.  The argument
`-places - 1` is `int32` arithmetic, hence the `i32` wraps. -/
def Round (d : Decimal) (places : ℤ) : Decimal :=
  let ret := d.rescale (i32 (i32 (-places) - 1))
  let biased := if ret.value < 0 then ret.value - 5 else ret.value + 5
  let q := biased / 10
  let m := biased % 10
  if q < 0 ∧ m ≠ 0 then ⟨q + 1, i32 (ret.exp + 1)⟩
  else ⟨q, i32 (ret.exp + 1)⟩

/-- Go `func (d *Decimal) Abs() *Decimal`. -/
def Abs (d : Decimal) : Decimal := ⟨|d.value|, d.exp⟩

/-- Go `func (d *Decimal) Cmp(d2 *Decimal) int`. -/
def Cmp (d d2 : Decimal) : ℤ :=
  if d.exp = d2.exp then cmpInt d.value d2.value
  else
    let baseExp := min32 d.exp d2.exp
    let rd := d.rescale baseExp
    let rd2 := d2.rescale baseExp
    cmpInt rd.value rd2.value

/-- Go `func (d *Decimal) RoundBank(places int32) *Decimal`: take the
half-away-from-zero candidate, and when the distance to the original value is
exactly half a unit in the last place and the candidate's coefficient is odd
(`Bit(0) != 0`), move the coefficient one unit toward zero. -/
def RoundBank (d : Decimal) (places : ℤ) : Decimal :=
  let round := d.Round places
  let remainder := (d.Sub round).Abs
  let half := New 5 (i32 (i32 (-places) - 1))
  if remainder.Cmp half = 0 ∧ round.value % 2 ≠ 0 then
    if round.value < 0 then ⟨round.value + 1, round.exp⟩
    else ⟨round.value - 1, round.exp⟩
  else round

/-- The trailing-`'0'`-stripping loop of `string`. -/
def trimZeros (s : String) : String :=
  String.mk ((s.toList.reverse.dropWhile (fun c => c = '0')).reverse)

/-- Go `func (d Decimal) string(trimTrailingZeros bool) string`. -/
def string (d : Decimal) (trimTrailingZeros : Bool) : String :=
  if d.exp ≥ 0 then (d.rescale 0).value.repr
  else
    let str := (Nat.repr d.value.natAbs)
    let intPart :=
      if (str.length : ℤ) > -d.exp then str.take ((str.length : ℤ) + d.exp).toNat
      else "0"
    let fractionalPart :=
      if (str.length : ℤ) > -d.exp then str.drop ((str.length : ℤ) + d.exp).toNat
      else String.mk (List.replicate (-d.exp - (str.length : ℤ)).toNat '0') ++ str
    let fractionalPart := if trimTrailingZeros then trimZeros fractionalPart else fractionalPart
    let number := if fractionalPart.length > 0 then intPart ++ "." ++ fractionalPart else intPart
    if d.value < 0 then "-" ++ number else number

/-- Go `func (d *Decimal) StringFixedBank(places int32) string`. -/
def StringFixedBank (d : Decimal) (places : ℤ) : String :=
  (d.RoundBank places).string false

end Decimal

/-- The real number represented by a `Decimal`: `coefficient × 10^exponent`,
as a rational. -/
def valQ (d : Decimal) : ℚ := (d.value : ℚ) * 10 ^ d.exp

/-- The integer nearest to `q`, with ties rounded away from zero (the spec's
"round half up in magnitude, applied symmetrically to both signs"). -/
def rndAway (q : ℚ) : ℤ := if q < 0 then -⌊-q + 1 / 2⌋ else ⌊q + 1 / 2⌋

/-!
## Heap model

The Go code manipulates `*big.Int` pointers: `new(big.Int)` allocates a fresh
cell, `Set` copies, and the arithmetic methods store into their receiver.  The
spec's immutability claim ("no operation mutates an operand visible to the
caller; results never alias an input") is about this store, so we re-express
the same functions in store-passing style: a heap is the list of allocated
`big.Int` cells, a `DecimalH` holds the index of its coefficient cell, and
each operation returns the updated heap.  Allocation (`new(big.Int)`) appends
to the heap; an in-place method call (`value.Quo(value, s)`, `ret.value.Add`,
`DivMod`, …) is `List.set` at the receiver's index, exactly where the Go code
mutates. -/

/-- The allocated `big.Int` cells. -/
abbrev Heap := List ℤ

/-- A `Decimal` whose coefficient lives on the heap: `value *big.Int` is the
index `loc`, `exp int32` is inline. -/
structure DecimalH where
  loc : ℕ
  exp : ℤ

/-- Read a heap cell. -/
def hget (h : Heap) (l : ℕ) : ℤ := List.getD h l 0

namespace Heap

/-- Operation `New` in store-passing style: `big.NewInt` allocates a fresh cell. -/
def NewH (h : Heap) (value exp : ℤ) : Heap × DecimalH :=
  (List.append h [value], ⟨List.length h, exp⟩)

/-- Operation `rescale` in store-passing style: copy the coefficient into a fresh cell
(`new(big.Int).Set(d.value)`), allocate `expScale`, then `Quo`/`Mul` in place
on the fresh copy. -/
def rescaleH (h : Heap) (d : DecimalH) (exp : ℤ) : Heap × DecimalH :=
  let diff : ℕ := rescaleDiff d.exp exp
  let vloc := List.length h
  let h1 := List.append h [hget h d.loc]
  let sloc := List.length h1
  let h2 := List.append h1 [(10 : ℤ) ^ diff]
  let h3 :=
    if exp > d.exp then List.set h2 vloc ((hget h2 vloc).tdiv (hget h2 sloc))
    else if exp < d.exp then List.set h2 vloc (hget h2 vloc * hget h2 sloc)
    else h2
  (h3, ⟨vloc, exp⟩)

/-- Operation `Add` in store-passing style: rescale both operands (fresh copies), then
`new(big.Int).Add` allocates the result cell. -/
def AddH (h : Heap) (d d2 : DecimalH) : Heap × DecimalH :=
  let baseScale := Decimal.min32 d.exp d2.exp
  let p1 := rescaleH h d baseScale
  let p2 := rescaleH p1.1 d2 baseScale
  let h2 := p2.1
  (List.append h2 [hget h2 p1.2.loc + hget h2 p2.2.loc], ⟨List.length h2, baseScale⟩)

/-- Operation `Sub` in store-passing style. -/
def SubH (h : Heap) (d d2 : DecimalH) : Heap × DecimalH :=
  let baseScale := Decimal.min32 d.exp d2.exp
  let p1 := rescaleH h d baseScale
  let p2 := rescaleH p1.1 d2 baseScale
  let h2 := p2.1
  (List.append h2 [hget h2 p1.2.loc - hget h2 p2.2.loc], ⟨List.length h2, baseScale⟩)

/-- Operation `Mul` in store-passing style: the overflow check panics before anything is
allocated; otherwise `new(big.Int).Mul` allocates the result cell. -/
def MulH (h : Heap) (d d2 : DecimalH) : Heap × Option DecimalH :=
  let expInt64 := d.exp + d2.exp
  if expInt64 > 2 ^ 31 - 1 ∨ expInt64 < -(2 ^ 31) then (h, none)
  else
    (List.append h [hget h d.loc * hget h d2.loc], some ⟨List.length h, expInt64⟩)

/-- Operation `Abs` in store-passing style: `new(big.Int).Abs` allocates. -/
def AbsH (h : Heap) (d : DecimalH) : Heap × DecimalH :=
  (List.append h [|hget h d.loc|], ⟨List.length h, d.exp⟩)

/-- Operation `Cmp` in store-passing style: `big.Int.Cmp` reads but never writes; the
rescales allocate private copies. -/
def CmpH (h : Heap) (d d2 : DecimalH) : Heap × ℤ :=
  if d.exp = d2.exp then (h, cmpInt (hget h d.loc) (hget h d2.loc))
  else
    let baseExp := Decimal.min32 d.exp d2.exp
    let p1 := rescaleH h d baseExp
    let p2 := rescaleH p1.1 d2 baseExp
    (p2.1, cmpInt (hget p2.1 p1.2.loc) (hget p2.1 p2.2.loc))

/-- Operation `Round` in store-passing style: every mutation (`Sub`/`Add` of the bias,
`DivMod`, the negative correction) stores into the cell freshly allocated by
`rescale`; the remainder `m` is a fresh `new(big.Int)`. -/
def RoundH (h : Heap) (d : DecimalH) (places : ℤ) : Heap × DecimalH :=
  let p1 := rescaleH h d (i32 (i32 (-places) - 1))
  let h1 := p1.1
  let ret := p1.2
  let v0 := hget h1 ret.loc
  let h2 := List.set h1 ret.loc (if v0 < 0 then v0 - 5 else v0 + 5)
  let biased := hget h2 ret.loc
  let mloc := List.length h2
  let h3 := List.append h2 [biased % 10]
  let h4 := List.set h3 ret.loc (biased / 10)
  let q := hget h4 ret.loc
  let h5 := if q < 0 ∧ hget h4 mloc ≠ 0 then List.set h4 ret.loc (q + 1) else h4
  (h5, ⟨ret.loc, i32 (ret.exp + 1)⟩)

/-- Operation `RoundBank` in store-passing style: the tie adjustment stores into the
cell owned by the `Round` candidate, which `Round` freshly allocated. -/
def RoundBankH (h : Heap) (d : DecimalH) (places : ℤ) : Heap × DecimalH :=
  let p1 := RoundH h d places
  let round := p1.2
  let p2 := SubH p1.1 d round
  let p3 := AbsH p2.1 p2.2
  let remainder := p3.2
  let p4 := NewH p3.1 5 (i32 (i32 (-places) - 1))
  let half := p4.2
  let p5 := CmpH p4.1 remainder half
  let h5 := p5.1
  let rv := hget h5 round.loc
  let h6 :=
    if p5.2 = 0 ∧ rv % 2 ≠ 0 then
      if rv < 0 then List.set h5 round.loc (rv + 1)
      else List.set h5 round.loc (rv - 1)
    else h5
  (h6, round)

/-- Operation `string` in store-passing style: the `exp ≥ 0` branch rescales (allocating
a private copy); the `exp < 0` branch allocates `new(big.Int).Abs`. -/
def stringH (h : Heap) (d : DecimalH) (trimTrailingZeros : Bool) : Heap × String :=
  if d.exp ≥ 0 then
    let p1 := rescaleH h d 0
    (p1.1, (hget p1.1 p1.2.loc).repr)
  else
    let h1 := List.append h [|hget h d.loc|]
    (h1, Decimal.string ⟨hget h d.loc, d.exp⟩ trimTrailingZeros)

/-- Operation `StringFixedBank` in store-passing style. -/
def StringFixedBankH (h : Heap) (d : DecimalH) (places : ℤ) : Heap × String :=
  let p1 := RoundBankH h d places
  stringH p1.1 p1.2 false

end Heap

/-- Heap `h'` preserves every cell of `h`: nothing already allocated is written by
the operation (it may only allocate new cells and write those). -/
def HeapExtends (h h' : Heap) : Prop :=
  List.length h ≤ List.length h' ∧ ∀ i, i < List.length h → hget h' i = hget h i

/-- Predicate: `x` is in the range of Go's `int32`. -/
abbrev inI32 (x : ℤ) : Prop := -2 ^ 31 ≤ x ∧ x < 2 ^ 31

/-! ## Basic lemmas: `int32` wrap-around and the `float64` intermediate -/

lemma i32_eq_self {x : ℤ} (h1 : -2 ^ 31 ≤ x) (h2 : x < 2 ^ 31) : i32 x = x := by
  unfold i32; omega

lemma f64roundNat_eq_self {n : ℕ} (h : n < 2 ^ 53) : f64roundNat n = n := by
  unfold f64roundNat; rw [if_pos h]

lemma f64round_eq_self {x : ℤ} (h : x.natAbs < 2 ^ 53) : f64round x = x := by
  unfold f64round
  rcases lt_or_le x 0 with hx | hx
  · rw [if_pos hx, f64roundNat_eq_self h]; omega
  · rw [if_neg (not_lt.mpr hx), f64roundNat_eq_self h]; omega

/-- For `int32` exponents the float64 subtraction in `rescale` is exact:
the difference is at most `2^32`, far below the 53-bit significand limit. -/
lemma rescaleDiff_exact {e x : ℤ} (he : inI32 e) (hx : inI32 x) :
    rescaleDiff e x = (x - e).natAbs := by
  unfold rescaleDiff
  rw [f64round_eq_self (by omega)]

/-! ## Characterization of `rescale` -/

lemma rescale_exp (d : Decimal) (e : ℤ) : (d.rescale e).exp = e := by
  unfold Decimal.rescale
  split
  · rfl
  · split <;> rfl

lemma rescale_value_le (d : Decimal) (e : ℤ) (h : e ≤ d.exp)
    (hd : inI32 d.exp) (he : inI32 e) :
    (d.rescale e).value = d.value * 10 ^ (d.exp - e).toNat := by
  unfold Decimal.rescale
  rw [rescaleDiff_exact hd he]
  rcases lt_or_eq_of_le h with h' | h'
  · rw [if_neg (by omega), if_pos h']
    show d.value * 10 ^ (e - d.exp).natAbs = d.value * 10 ^ (d.exp - e).toNat
    congr 2
    omega
  · rw [if_neg (by omega), if_neg (by omega)]
    show d.value = d.value * 10 ^ (d.exp - e).toNat
    rw [show (d.exp - e).toNat = 0 by omega]
    ring

lemma rescale_value_gt (d : Decimal) (e : ℤ) (h : d.exp < e)
    (hd : inI32 d.exp) (he : inI32 e) :
    (d.rescale e).value = d.value.tdiv (10 ^ (e - d.exp).toNat) := by
  unfold Decimal.rescale
  rw [rescaleDiff_exact hd he, if_pos h]
  show d.value.tdiv (10 ^ (e - d.exp).natAbs) = d.value.tdiv (10 ^ (e - d.exp).toNat)
  congr 2
  omega

/-! ## The represented rational value -/

lemma valQ_def (c e : ℤ) : valQ ⟨c, e⟩ = (c : ℚ) * 10 ^ e := rfl

lemma decimal_ext {d : Decimal} {v e : ℤ} (hv : d.value = v) (he : d.exp = e) :
    d = ⟨v, e⟩ := by
  cases d
  cases hv
  cases he
  rfl

lemma eta_exp (d : Decimal) {e : ℤ} (h : d.exp = e) : d = ⟨d.value, e⟩ :=
  decimal_ext rfl h

lemma valQ_eval (d : Decimal) : valQ d = (d.value : ℚ) * 10 ^ d.exp := rfl

lemma rescale_valQ (d : Decimal) (e : ℤ) (h : e ≤ d.exp)
    (hd : inI32 d.exp) (he : inI32 e) :
    valQ (d.rescale e) = valQ d := by
  rw [valQ_eval, valQ_eval, rescale_value_le d e h hd he, rescale_exp]
  push_cast
  rw [mul_assoc, ← zpow_natCast (10 : ℚ) (d.exp - e).toNat,
    ← zpow_add₀ (by norm_num : (10 : ℚ) ≠ 0)]
  congr 2
  omega

lemma min32_le_left (x y : ℤ) : Decimal.min32 x y ≤ x := by
  unfold Decimal.min32; split <;> omega

lemma min32_le_right (x y : ℤ) : Decimal.min32 x y ≤ y := by
  unfold Decimal.min32; split <;> omega

lemma min32_inI32 {x y : ℤ} (hx : inI32 x) (hy : inI32 y) :
    inI32 (Decimal.min32 x y) := by
  unfold Decimal.min32; constructor <;> (split <;> omega)

lemma valQ_lt_iff {c1 c2 e : ℤ} :
    valQ ⟨c1, e⟩ < valQ ⟨c2, e⟩ ↔ c1 < c2 := by
  rw [valQ_def, valQ_def,
    mul_lt_mul_right (zpow_pos (by norm_num : (0:ℚ) < 10) e)]
  exact Int.cast_lt

lemma valQ_eq_iff {c1 c2 e : ℤ} :
    valQ ⟨c1, e⟩ = valQ ⟨c2, e⟩ ↔ c1 = c2 := by
  rw [valQ_def, valQ_def,
    mul_left_inj' (zpow_ne_zero e (by norm_num : (10:ℚ) ≠ 0))]
  exact Int.cast_inj

lemma cmpInt_spec (x y : ℤ) :
    (cmpInt x y = -1 ↔ x < y) ∧ (cmpInt x y = 0 ↔ x = y) ∧ (cmpInt x y = 1 ↔ y < x) := by
  unfold cmpInt
  split_ifs with h1 h2 <;> refine ⟨?_, ?_, ?_⟩ <;> simp <;> omega

/-! ## Arithmetic operations preserve the represented value -/

lemma Add_exp (a b : Decimal) : (a.Add b).exp = Decimal.min32 a.exp b.exp := rfl

lemma Sub_exp (a b : Decimal) : (a.Sub b).exp = Decimal.min32 a.exp b.exp := rfl

lemma Abs_exp (a : Decimal) : a.Abs.exp = a.exp := rfl

lemma Add_valQ (a b : Decimal) (ha : inI32 a.exp) (hb : inI32 b.exp) :
    valQ (a.Add b) = valQ a + valQ b := by
  have hm := min32_inI32 ha hb
  rw [show a.Add b = ⟨(a.rescale (Decimal.min32 a.exp b.exp)).value +
      (b.rescale (Decimal.min32 a.exp b.exp)).value, Decimal.min32 a.exp b.exp⟩ from rfl]
  rw [valQ_def]
  push_cast
  rw [add_mul]
  rw [show ((a.rescale (Decimal.min32 a.exp b.exp)).value : ℚ) *
        10 ^ Decimal.min32 a.exp b.exp = valQ (a.rescale (Decimal.min32 a.exp b.exp)) by
      rw [valQ_eval, rescale_exp]]
  rw [show ((b.rescale (Decimal.min32 a.exp b.exp)).value : ℚ) *
        10 ^ Decimal.min32 a.exp b.exp = valQ (b.rescale (Decimal.min32 a.exp b.exp)) by
      rw [valQ_eval, rescale_exp]]
  rw [rescale_valQ a _ (min32_le_left _ _) ha hm, rescale_valQ b _ (min32_le_right _ _) hb hm]

lemma Sub_valQ (a b : Decimal) (ha : inI32 a.exp) (hb : inI32 b.exp) :
    valQ (a.Sub b) = valQ a - valQ b := by
  have hm := min32_inI32 ha hb
  rw [show a.Sub b = ⟨(a.rescale (Decimal.min32 a.exp b.exp)).value -
      (b.rescale (Decimal.min32 a.exp b.exp)).value, Decimal.min32 a.exp b.exp⟩ from rfl]
  rw [valQ_def]
  push_cast
  rw [sub_mul]
  rw [show ((a.rescale (Decimal.min32 a.exp b.exp)).value : ℚ) *
        10 ^ Decimal.min32 a.exp b.exp = valQ (a.rescale (Decimal.min32 a.exp b.exp)) by
      rw [valQ_eval, rescale_exp]]
  rw [show ((b.rescale (Decimal.min32 a.exp b.exp)).value : ℚ) *
        10 ^ Decimal.min32 a.exp b.exp = valQ (b.rescale (Decimal.min32 a.exp b.exp)) by
      rw [valQ_eval, rescale_exp]]
  rw [rescale_valQ a _ (min32_le_left _ _) ha hm, rescale_valQ b _ (min32_le_right _ _) hb hm]

lemma Abs_valQ (a : Decimal) : valQ a.Abs = |valQ a| := by
  rw [show a.Abs = ⟨|a.value|, a.exp⟩ from rfl, valQ_def, valQ_eval, abs_mul,
    abs_of_pos (zpow_pos (by norm_num : (0:ℚ) < 10) a.exp)]
  push_cast
  rfl

/-! ## The rounding core

`Round` truncates to one guard digit (`rescale (-places-1)`, truncation toward
zero), adds `±5`, Euclidean-divides by 10 and repairs the negative, inexact
case; the lemmas below show this computes the nearest integer with ties away
from zero. -/

lemma rndAway_intCast (n : ℤ) : rndAway (n : ℚ) = n := by
  unfold rndAway
  split_ifs with h
  · rw [show -(n:ℚ) + 1 / 2 = ((-n : ℤ) : ℚ) + 1 / 2 by push_cast; ring,
      Int.floor_int_add]
    norm_num
  · rw [Int.floor_int_add]
    norm_num

/-- Floor of the half-biased quotient: for `0 ≤ r < 10^k` the digits below the
guard digit cannot move the result across a rounding boundary. -/
lemma floor_half_aux (t r : ℤ) (k : ℕ) (hr0 : 0 ≤ r) (hr : r < 10 ^ k) :
    ⌊((10 ^ k * t + r : ℤ) : ℚ) / ((10 ^ (k + 1) : ℕ) : ℚ) + 1 / 2⌋ = (t + 5) / 10 := by
  have hD : ((10 ^ (k + 1) : ℕ) : ℚ) ≠ 0 := by positivity
  have h1 : ((10 ^ k * t + r : ℤ) : ℚ) / ((10 ^ (k + 1) : ℕ) : ℚ) + 1 / 2
      = ((10 ^ k * (t + 5) + r : ℤ) : ℚ) / ((10 ^ (k + 1) : ℕ) : ℚ) := by
    field_simp
    ring
  rw [h1, Rat.floor_intCast_div_natCast]
  have hN : (10 : ℤ) * ((t + 5) / 10) + (t + 5) % 10 = t + 5 := Int.ediv_add_emod _ _
  have hρ0 : 0 ≤ (t + 5) % 10 := Int.emod_nonneg _ (by norm_num)
  have hρ9 : (t + 5) % 10 < 10 := Int.emod_lt_of_pos _ (by norm_num)
  have hPk : (0 : ℤ) < 10 ^ k := by positivity
  have hDz : (0 : ℤ) < ((10 ^ (k + 1) : ℕ) : ℤ) := by positivity
  have hnum : (10 ^ k * (t + 5) + r : ℤ)
      = (10 ^ k * ((t + 5) % 10) + r) + ((t + 5) / 10) * ((10 ^ (k + 1) : ℕ) : ℤ) := by
    push_cast
    linear_combination (-(10 ^ k : ℤ)) * hN
  rw [hnum, Int.add_mul_ediv_right _ _ hDz.ne']
  have hlt : 10 ^ k * ((t + 5) % 10) + r < ((10 ^ (k + 1) : ℕ) : ℤ) := by
    push_cast
    rw [pow_succ]
    have h9 : 10 ^ k * ((t + 5) % 10) ≤ 10 ^ k * 9 :=
      mul_le_mul_of_nonneg_left (by omega) hPk.le
    linarith
  rw [Int.ediv_eq_zero_of_lt (by positivity) hlt, zero_add]

/-- The add-bias-then-divide step of `Round`, applied to a coefficient that
was truncated toward zero by `10^k`, computes the nearest integer to
`c / 10^(k+1)` with ties away from zero. -/
lemma roundAux (t c : ℤ) (k : ℕ) (ht : t = c.tdiv (10 ^ k)) :
    (if (if t < 0 then t - 5 else t + 5) / 10 < 0 ∧ (if t < 0 then t - 5 else t + 5) % 10 ≠ 0
     then (if t < 0 then t - 5 else t + 5) / 10 + 1
     else (if t < 0 then t - 5 else t + 5) / 10)
      = rndAway ((c : ℚ) / ((10 ^ (k + 1) : ℕ) : ℚ)) := by
  have hPk : (0 : ℤ) < 10 ^ k := by positivity
  have hD : (0 : ℚ) < ((10 ^ (k + 1) : ℕ) : ℚ) := by positivity
  rcases lt_or_le c 0 with hc | hc
  · -- negative coefficient
    have hmt : (-c).tdiv (10 ^ k) = -t := by rw [ht, Int.neg_tdiv]
    have hmt0 : 0 ≤ -t := hmt ▸ Int.tdiv_nonneg (by omega) hPk.le
    have hmr0 : 0 ≤ (-c).tmod (10 ^ k) := Int.tmod_nonneg _ (by omega)
    have hmrlt : (-c).tmod (10 ^ k) < 10 ^ k := Int.tmod_lt_of_pos _ hPk
    have hmdecomp : 10 ^ k * (-t) + (-c).tmod (10 ^ k) = -c := by
      rw [← hmt]
      exact Int.tdiv_add_tmod (-c) _
    have hy : ((c : ℚ) / ((10 ^ (k + 1) : ℕ) : ℚ)) < 0 :=
      div_neg_of_neg_of_pos (by exact_mod_cast hc) hD
    rw [rndAway, if_pos hy]
    have hneg : -((c : ℚ) / ((10 ^ (k + 1) : ℕ) : ℚ)) + 1 / 2
        = ((10 ^ k * (-t) + (-c).tmod (10 ^ k) : ℤ) : ℚ) / ((10 ^ (k + 1) : ℕ) : ℚ) + 1 / 2 := by
      rw [hmdecomp]
      push_cast
      ring_nf
    rw [hneg, floor_half_aux _ _ _ hmr0 hmrlt]
    rcases lt_or_eq_of_le (by omega : t ≤ 0) with ht0 | ht0
    · rw [if_pos ht0]
      rcases em ((t - 5) % 10 = 0) with hm | hm
      · rw [if_neg (fun hh => hh.2 hm)]
        omega
      · rw [if_pos ⟨by omega, hm⟩]
        omega
    · subst ht0
      decide
  · -- nonnegative coefficient
    have ht0 : 0 ≤ t := ht ▸ Int.tdiv_nonneg hc hPk.le
    have hr0 : 0 ≤ c.tmod (10 ^ k) := Int.tmod_nonneg _ hc
    have hrlt : c.tmod (10 ^ k) < 10 ^ k := Int.tmod_lt_of_pos _ hPk
    have hdecomp : 10 ^ k * t + c.tmod (10 ^ k) = c := by
      rw [ht]
      exact Int.tdiv_add_tmod c _
    rw [if_neg (not_lt.mpr ht0)]
    have hy : ¬((c : ℚ) / ((10 ^ (k + 1) : ℕ) : ℚ)) < 0 :=
      not_lt.mpr (div_nonneg (by exact_mod_cast hc) hD.le)
    rw [rndAway, if_neg hy]
    have hq0 : 0 ≤ (t + 5) / 10 := Int.ediv_nonneg (by omega) (by norm_num)
    rw [if_neg (fun hh => absurd hh.1 (not_lt.mpr hq0))]
    have hcc : (c : ℚ) = ((10 ^ k * t + c.tmod (10 ^ k) : ℤ) : ℚ) := by rw [hdecomp]
    rw [hcc, floor_half_aux _ _ _ hr0 hrlt]

lemma Round_eq_raw (d : Decimal) (p : ℤ) :
    d.Round p =
      if (if (d.rescale (i32 (i32 (-p) - 1))).value < 0
           then (d.rescale (i32 (i32 (-p) - 1))).value - 5
           else (d.rescale (i32 (i32 (-p) - 1))).value + 5) / 10 < 0 ∧
         (if (d.rescale (i32 (i32 (-p) - 1))).value < 0
           then (d.rescale (i32 (i32 (-p) - 1))).value - 5
           else (d.rescale (i32 (i32 (-p) - 1))).value + 5) % 10 ≠ 0
      then ⟨(if (d.rescale (i32 (i32 (-p) - 1))).value < 0
           then (d.rescale (i32 (i32 (-p) - 1))).value - 5
           else (d.rescale (i32 (i32 (-p) - 1))).value + 5) / 10 + 1,
           i32 ((d.rescale (i32 (i32 (-p) - 1))).exp + 1)⟩
      else ⟨(if (d.rescale (i32 (i32 (-p) - 1))).value < 0
           then (d.rescale (i32 (i32 (-p) - 1))).value - 5
           else (d.rescale (i32 (i32 (-p) - 1))).value + 5) / 10,
           i32 ((d.rescale (i32 (i32 (-p) - 1))).exp + 1)⟩ := rfl

lemma Round_exp_raw (d : Decimal) (p : ℤ) :
    (d.Round p).exp = i32 ((d.rescale (i32 (i32 (-p) - 1))).exp + 1) := by
  rw [Round_eq_raw]
  split <;> split <;> rfl

lemma Round_value_raw (d : Decimal) (p : ℤ) :
    (d.Round p).value =
      (if (if (d.rescale (i32 (i32 (-p) - 1))).value < 0
           then (d.rescale (i32 (i32 (-p) - 1))).value - 5
           else (d.rescale (i32 (i32 (-p) - 1))).value + 5) / 10 < 0 ∧
          (if (d.rescale (i32 (i32 (-p) - 1))).value < 0
           then (d.rescale (i32 (i32 (-p) - 1))).value - 5
           else (d.rescale (i32 (i32 (-p) - 1))).value + 5) % 10 ≠ 0
       then (if (d.rescale (i32 (i32 (-p) - 1))).value < 0
           then (d.rescale (i32 (i32 (-p) - 1))).value - 5
           else (d.rescale (i32 (i32 (-p) - 1))).value + 5) / 10 + 1
       else (if (d.rescale (i32 (i32 (-p) - 1))).value < 0
           then (d.rescale (i32 (i32 (-p) - 1))).value - 5
           else (d.rescale (i32 (i32 (-p) - 1))).value + 5) / 10) := by
  rw [Round_eq_raw]
  split <;> split <;> rfl

/-- Characterization of `Round` on the represented values: the result has exponent
`-places` and its coefficient is the nearest integer (ties away from zero) to
the represented value scaled by `10^places`. -/
lemma Round_char (d : Decimal) (p : ℤ) (hd : inI32 d.exp)
    (hp1 : -2 ^ 31 < p) (hp2 : p < 2 ^ 31) :
    (d.Round p).exp = -p ∧ (d.Round p).value = rndAway (valQ d * 10 ^ p) := by
  have h10 : (10 : ℚ) ≠ 0 := by norm_num
  have hi1 : i32 (-p) = -p := i32_eq_self (by omega) (by omega)
  have hT : i32 (i32 (-p) - 1) = -p - 1 := by
    rw [hi1]
    exact i32_eq_self (by omega) (by omega)
  have hTi : inI32 (-p - 1) := by constructor <;> omega
  constructor
  · rw [Round_exp_raw, hT, rescale_exp,
      show -p - 1 + 1 = -p by ring, hi1]
  · rcases le_or_lt (-p - 1) d.exp with hle | hgt
    · have hret : d.rescale (i32 (i32 (-p) - 1))
          = ⟨d.value * 10 ^ (d.exp - (-p - 1)).toNat, -p - 1⟩ := by
        rw [hT]
        exact decimal_ext (rescale_value_le d _ hle hd hTi) (rescale_exp d _)
      rw [Round_value_raw, hret]
      rw [roundAux (d.value * 10 ^ (d.exp - (-p - 1)).toNat)
        (d.value * 10 ^ (d.exp - (-p - 1)).toNat) 0
        (by rw [pow_zero, Int.tdiv_one])]
      congr 1
      have hj : ((d.exp - (-p - 1)).toNat : ℤ) = d.exp + p + 1 := by omega
      rw [valQ_eval]
      push_cast
      rw [← zpow_natCast (10 : ℚ) (d.exp - (-p - 1)).toNat, hj,
        show d.exp + p + 1 = d.exp + (p + 1) by ring, zpow_add₀ h10,
        zpow_add₀ h10, zpow_one]
      ring
    · have hret : d.rescale (i32 (i32 (-p) - 1))
          = ⟨d.value.tdiv (10 ^ (-p - 1 - d.exp).toNat), -p - 1⟩ := by
        rw [hT]
        exact decimal_ext (rescale_value_gt d _ hgt hd hTi) (rescale_exp d _)
      rw [Round_value_raw, hret]
      rw [roundAux (d.value.tdiv (10 ^ (-p - 1 - d.exp).toNat))
        d.value (-p - 1 - d.exp).toNat rfl]
      congr 1
      have hk : (((-p - 1 - d.exp).toNat + 1 : ℕ) : ℤ) = -(d.exp + p) := by omega
      rw [valQ_eval]
      push_cast
      rw [← zpow_natCast (10 : ℚ) ((-p - 1 - d.exp).toNat + 1), hk, zpow_neg,
        div_eq_mul_inv, inv_inv, zpow_add₀ h10]
      ring

/-- Correctness of `Cmp`: it decides the order of the represented rational values, in both the
equal-exponent and the rescale branch. -/
lemma Cmp_valQ (a b : Decimal) (ha : inI32 a.exp) (hb : inI32 b.exp) :
    (a.Cmp b = -1 ↔ valQ a < valQ b) ∧ (a.Cmp b = 0 ↔ valQ a = valQ b) ∧
      (a.Cmp b = 1 ↔ valQ b < valQ a) := by
  unfold Decimal.Cmp
  split_ifs with hexp
  · have hva : a = ⟨a.value, a.exp⟩ := rfl
    have hvb : b = ⟨b.value, b.exp⟩ := rfl
    rw [hva, hvb, hexp, valQ_lt_iff, valQ_eq_iff, valQ_lt_iff]
    exact cmpInt_spec _ _
  · have hm := min32_inI32 ha hb
    have h1 := rescale_valQ a (Decimal.min32 a.exp b.exp) (min32_le_left _ _) ha hm
    have h2 := rescale_valQ b (Decimal.min32 a.exp b.exp) (min32_le_right _ _) hb hm
    have e1 := eta_exp _ (rescale_exp a (Decimal.min32 a.exp b.exp))
    have e2 := eta_exp _ (rescale_exp b (Decimal.min32 a.exp b.exp))
    rw [← h1, ← h2, e1, e2, valQ_lt_iff, valQ_eq_iff, valQ_lt_iff]
    exact cmpInt_spec _ _

lemma i32_neg_sub_one {p : ℤ} (hp1 : -2 ^ 31 < p) (hp2 : p < 2 ^ 31) :
    i32 (i32 (-p) - 1) = -p - 1 := by
  rw [show i32 (-p) = -p from i32_eq_self (by omega) (by omega)]
  exact i32_eq_self (by omega) (by omega)

lemma RoundBank_eq_raw (d : Decimal) (p : ℤ) :
    d.RoundBank p =
      if (d.Sub (d.Round p)).Abs.Cmp (New 5 (i32 (i32 (-p) - 1))) = 0
          ∧ (d.Round p).value % 2 ≠ 0
      then if (d.Round p).value < 0 then ⟨(d.Round p).value + 1, (d.Round p).exp⟩
           else ⟨(d.Round p).value - 1, (d.Round p).exp⟩
      else d.Round p := rfl

/-! ## The claims -/

/-- C1.  For every `Decimal` `v` and every `int32` `p` with `-2^31 < p`,
`Round(v, p)` has exponent exactly `-p` and coefficient the integer nearest to
`v`'s represented value divided by `10^(-p)`, ties away from zero; in
particular `Round(New(55,-1), 0)` has coefficient 6 and `Round(New(-55,-1), 0)`
has coefficient -6. -/
theorem round_spec :
    (∀ (v : Decimal) (p : ℤ), inI32 v.exp → -2 ^ 31 < p → p < 2 ^ 31 →
      (v.Round p).exp = -p ∧
        (v.Round p).value = rndAway (valQ v / 10 ^ (-p : ℤ))) ∧
    (Decimal.Round (New 55 (-1)) 0).value = 6 ∧
    (Decimal.Round (New (-55) (-1)) 0).value = -6 := by
  refine ⟨?_, by decide, by decide⟩
  intro v p hv hp1 hp2
  have h := Round_char v p hv hp1 hp2
  refine ⟨h.1, ?_⟩
  rw [h.2]
  congr 1
  rw [zpow_neg, div_eq_mul_inv, inv_inv]

theorem round_spec_witness :
    (inI32 (New 55 (-1) : Decimal).exp ∧ -2 ^ 31 < (0 : ℤ) ∧ (0 : ℤ) < 2 ^ 31) ∧
    ((New 55 (-1) : Decimal).Round 0).exp = -0 ∧
      ((New 55 (-1) : Decimal).Round 0).value = rndAway (valQ (New 55 (-1)) / 10 ^ (-(0 : ℤ))) :=
  ⟨⟨by decide, by decide, by decide⟩,
    round_spec.1 (New 55 (-1)) 0 (by decide) (by decide) (by decide)⟩

/-- C2.  `RoundBank` equals the `Round` candidate except when the original
value is exactly half a unit in the last place away from it and the
candidate's coefficient is odd; in that tie case the coefficient moves one
unit toward zero (making the final digit even).  In particular
`RoundBank(New(25,-1), 0)` has coefficient 2 and `RoundBank(New(35,-1), 0)`
has coefficient 4. -/
theorem roundBank_spec :
    (∀ (v : Decimal) (p : ℤ), inI32 v.exp → -2 ^ 31 < p → p < 2 ^ 31 →
      (v.RoundBank p).exp = (v.Round p).exp ∧
      ((|valQ v - valQ (v.Round p)| = 5 * 10 ^ (-p - 1 : ℤ) ∧ (v.Round p).value % 2 ≠ 0) →
        (v.RoundBank p).value = (v.Round p).value - (v.Round p).value.sign) ∧
      (¬(|valQ v - valQ (v.Round p)| = 5 * 10 ^ (-p - 1 : ℤ) ∧ (v.Round p).value % 2 ≠ 0) →
        (v.RoundBank p).value = (v.Round p).value)) ∧
    (Decimal.RoundBank (New 25 (-1)) 0).value = 2 ∧
    (Decimal.RoundBank (New 35 (-1)) 0).value = 4 := by
  refine ⟨?_, by decide, by decide⟩
  intro v p hv hp1 hp2
  have hT : i32 (i32 (-p) - 1) = -p - 1 := i32_neg_sub_one hp1 hp2
  have hrexp : (v.Round p).exp = -p := (Round_char v p hv hp1 hp2).1
  have hr32 : inI32 (v.Round p).exp := by rw [hrexp]; constructor <;> omega
  have hA32 : inI32 ((v.Sub (v.Round p)).Abs).exp := by
    rw [Abs_exp, Sub_exp]; exact min32_inI32 hv hr32
  have hH32 : inI32 (New 5 (-p - 1) : Decimal).exp := by
    show inI32 (-p - 1)
    constructor <;> omega
  have hhalf : valQ (New 5 (-p - 1)) = 5 * 10 ^ (-p - 1 : ℤ) := by
    show valQ ⟨5, -p - 1⟩ = 5 * 10 ^ (-p - 1 : ℤ)
    rw [valQ_def]
    norm_num
  have hiff : ((v.Sub (v.Round p)).Abs.Cmp (New 5 (-p - 1)) = 0)
      ↔ |valQ v - valQ (v.Round p)| = 5 * 10 ^ (-p - 1 : ℤ) := by
    rw [(Cmp_valQ _ _ hA32 hH32).2.1, Abs_valQ, Sub_valQ _ _ hv hr32, hhalf]
  refine ⟨?_, ?_, ?_⟩
  · rw [RoundBank_eq_raw, hT]
    split
    · split <;> rfl
    · rfl
  · rintro ⟨htie, hodd⟩
    rw [RoundBank_eq_raw, hT, if_pos ⟨hiff.mpr htie, hodd⟩]
    rcases lt_trichotomy (v.Round p).value 0 with hneg | hzero | hpos
    · rw [if_pos hneg, Int.sign_eq_neg_one_iff_neg.mpr hneg]
      show (v.Round p).value + 1 = (v.Round p).value - (-1)
      ring
    · exact absurd hzero (by omega)
    · rw [if_neg (not_lt.mpr hpos.le), Int.sign_eq_one_iff_pos.mpr hpos]
  · intro hnot
    rw [RoundBank_eq_raw, hT, if_neg (fun hh => hnot ⟨hiff.mp hh.1, hh.2⟩)]

theorem roundBank_spec_witness :
    (inI32 (New 25 (-1) : Decimal).exp ∧ -2 ^ 31 < (0 : ℤ) ∧ (0 : ℤ) < 2 ^ 31) ∧
    ((New 25 (-1) : Decimal).RoundBank 0).exp = ((New 25 (-1) : Decimal).Round 0).exp ∧
    ((|valQ (New 25 (-1)) - valQ ((New 25 (-1) : Decimal).Round 0)| = 5 * 10 ^ (-(0:ℤ) - 1 : ℤ) ∧
        ((New 25 (-1) : Decimal).Round 0).value % 2 ≠ 0) →
      ((New 25 (-1) : Decimal).RoundBank 0).value
        = ((New 25 (-1) : Decimal).Round 0).value - ((New 25 (-1) : Decimal).Round 0).value.sign) ∧
    (¬(|valQ (New 25 (-1)) - valQ ((New 25 (-1) : Decimal).Round 0)| = 5 * 10 ^ (-(0:ℤ) - 1 : ℤ) ∧
        ((New 25 (-1) : Decimal).Round 0).value % 2 ≠ 0) →
      ((New 25 (-1) : Decimal).RoundBank 0).value = ((New 25 (-1) : Decimal).Round 0).value) :=
  ⟨⟨by decide, by decide, by decide⟩,
    roundBank_spec.1 (New 25 (-1)) 0 (by decide) (by decide) (by decide)⟩

/-- C3.  `Mul` fails (Go: panics) exactly when the `int64` sum of the two
`int32` exponents falls outside the `int32` range; otherwise it returns the
exact product of the coefficients with exponent exactly the sum — never a
wrapped or truncated exponent. -/
theorem mul_spec (a b : Decimal) (ha : inI32 a.exp) (hb : inI32 b.exp) :
    (a.Mul b = none ↔ (a.exp + b.exp > 2 ^ 31 - 1 ∨ a.exp + b.exp < -2 ^ 31)) ∧
    (∀ r, a.Mul b = some r → r.exp = a.exp + b.exp ∧ r.value = a.value * b.value) := by
  rw [show a.Mul b = (if a.exp + b.exp > 2 ^ 31 - 1 ∨ a.exp + b.exp < -(2 ^ 31) then none
      else some ⟨a.value * b.value, a.exp + b.exp⟩) from rfl]
  split_ifs with h
  · refine ⟨⟨fun _ => h, fun _ => rfl⟩, ?_⟩
    intro r hr
    exact absurd hr (by simp)
  · refine ⟨⟨fun hn => absurd hn (by simp), fun hcond => absurd hcond h⟩, ?_⟩
    intro r hr
    simp only [Option.some.injEq] at hr
    subst hr
    exact ⟨rfl, rfl⟩

theorem mul_spec_witness :
    (inI32 (New 2 3 : Decimal).exp ∧ inI32 (New 5 4 : Decimal).exp) ∧
    (((New 2 3 : Decimal).Mul (New 5 4) = none ↔
        ((New 2 3 : Decimal).exp + (New 5 4 : Decimal).exp > 2 ^ 31 - 1 ∨
         (New 2 3 : Decimal).exp + (New 5 4 : Decimal).exp < -2 ^ 31)) ∧
     (∀ r, (New 2 3 : Decimal).Mul (New 5 4) = some r →
        r.exp = (New 2 3 : Decimal).exp + (New 5 4 : Decimal).exp ∧
        r.value = (New 2 3 : Decimal).value * (New 5 4 : Decimal).value)) :=
  ⟨⟨by decide, by decide⟩, mul_spec (New 2 3) (New 5 4) (by decide) (by decide)⟩

/-- C4.  Rescaling to a finer (smaller) exponent multiplies the coefficient by
the exact power of ten, and rescaling back reproduces the original coefficient
exactly, for all `int32` exponents. -/
theorem rescale_roundtrip (v : Decimal) (e' : ℤ) (hv : inI32 v.exp) (he : inI32 e')
    (h : e' ≤ v.exp) :
    ((v.rescale e').rescale v.exp).value = v.value ∧
    ((v.rescale e').rescale v.exp).exp = v.exp := by
  have hfirst : v.rescale e' = ⟨v.value * 10 ^ (v.exp - e').toNat, e'⟩ :=
    decimal_ext (rescale_value_le v e' h hv he) (rescale_exp v e')
  refine ⟨?_, rescale_exp _ _⟩
  rcases lt_or_eq_of_le h with h' | h'
  · rw [hfirst, rescale_value_gt ⟨v.value * 10 ^ (v.exp - e').toNat, e'⟩ v.exp h' he hv]
    exact Int.mul_tdiv_cancel _ (by positivity)
  · subst h'
    rw [hfirst, rescale_value_le ⟨v.value * 10 ^ (v.exp - v.exp).toNat, v.exp⟩ v.exp
      (le_refl _) he he]
    simp

theorem rescale_roundtrip_witness :
    (inI32 (New 12345 (-2) : Decimal).exp ∧ inI32 (-6 : ℤ) ∧ (-6 : ℤ) ≤ (New 12345 (-2) : Decimal).exp) ∧
    (((New 12345 (-2) : Decimal).rescale (-6)).rescale (New 12345 (-2) : Decimal).exp).value
      = (New 12345 (-2) : Decimal).value ∧
    (((New 12345 (-2) : Decimal).rescale (-6)).rescale (New 12345 (-2) : Decimal).exp).exp
      = (New 12345 (-2) : Decimal).exp :=
  ⟨⟨by decide, by decide, by decide⟩,
    rescale_roundtrip (New 12345 (-2)) (-6) (by decide) (by decide) (by decide)⟩

/-- C5 (counterexample to the claim).  The claim asserts that for SOME pair of
`int32` exponents the float64-intermediate difference computed by `rescale`
differs from the exact integer `|e' - e|`.  This is false: the difference of
two `int32` values is at most `2^32`, below the 53-bit significand limit of
`float64`, so the computation is exact for every `int32` pair. -/
theorem rescaleDiff_error_refuted :
    ¬ ∃ e e' : ℤ, (inI32 e ∧ inI32 e') ∧ rescaleDiff e e' ≠ (e' - e).natAbs := by
  rintro ⟨e, e', ⟨he, he'⟩, hne⟩
  exact hne (rescaleDiff_exact he he')

/-- C5 (amended).  For all `int32` exponents the float64-intermediate
difference computed by `rescale` is exact — it equals `|e' - e|`, and the
scale factor used by `rescale` is exactly `10^|e' - e|`. -/
theorem rescaleDiff_exact_spec (e e' : ℤ) (he : inI32 e) (he' : inI32 e') :
    rescaleDiff e e' = (e' - e).natAbs ∧
    (10 : ℤ) ^ rescaleDiff e e' = 10 ^ (e' - e).natAbs := by
  refine ⟨rescaleDiff_exact he he', ?_⟩
  rw [rescaleDiff_exact he he']

theorem rescaleDiff_exact_spec_witness :
    (inI32 (-2147483648 : ℤ) ∧ inI32 (2147483647 : ℤ)) ∧
    (rescaleDiff (-2147483648) 2147483647 = ((2147483647 : ℤ) - -2147483648).natAbs ∧
     (10 : ℤ) ^ rescaleDiff (-2147483648) 2147483647
        = 10 ^ ((2147483647 : ℤ) - -2147483648).natAbs) :=
  ⟨⟨by decide, by decide⟩, rescaleDiff_exact_spec (-2147483648) 2147483647 (by decide) (by decide)⟩

/-- C6.  `Cmp` returns exactly one of -1 (less), 0 (equal), 1 (greater),
deciding the order of the represented real values, identically in the
equal-exponent branch and in the rescale branch; `Cmp = 0` holds iff the
result is neither -1 nor 1. -/
theorem cmp_spec (a b : Decimal) (ha : inI32 a.exp) (hb : inI32 b.exp) :
    (a.Cmp b = -1 ∨ a.Cmp b = 0 ∨ a.Cmp b = 1) ∧
    (a.Cmp b = -1 ↔ valQ a < valQ b) ∧
    (a.Cmp b = 0 ↔ valQ a = valQ b) ∧
    (a.Cmp b = 1 ↔ valQ b < valQ a) ∧
    (a.Cmp b = 0 ↔ (a.Cmp b ≠ -1 ∧ a.Cmp b ≠ 1)) := by
  have h := Cmp_valQ a b ha hb
  have tri : a.Cmp b = -1 ∨ a.Cmp b = 0 ∨ a.Cmp b = 1 := by
    rcases lt_trichotomy (valQ a) (valQ b) with hv | hv | hv
    · exact Or.inl (h.1.mpr hv)
    · exact Or.inr (Or.inl (h.2.1.mpr hv))
    · exact Or.inr (Or.inr (h.2.2.mpr hv))
  refine ⟨tri, h.1, h.2.1, h.2.2, ?_⟩
  constructor
  · intro h0
    constructor <;> (intro hx; omega)
  · rintro ⟨hn1, hn2⟩
    rcases tri with h' | h' | h'
    · exact absurd h' hn1
    · exact h'
    · exact absurd h' hn2

theorem cmp_spec_witness :
    (inI32 (New 123 0 : Decimal).exp ∧ inI32 (New 1235 (-1) : Decimal).exp) ∧
    (((New 123 0 : Decimal).Cmp (New 1235 (-1)) = -1 ∨
      (New 123 0 : Decimal).Cmp (New 1235 (-1)) = 0 ∨
      (New 123 0 : Decimal).Cmp (New 1235 (-1)) = 1) ∧
     ((New 123 0 : Decimal).Cmp (New 1235 (-1)) = -1 ↔ valQ (New 123 0) < valQ (New 1235 (-1))) ∧
     ((New 123 0 : Decimal).Cmp (New 1235 (-1)) = 0 ↔ valQ (New 123 0) = valQ (New 1235 (-1))) ∧
     ((New 123 0 : Decimal).Cmp (New 1235 (-1)) = 1 ↔ valQ (New 1235 (-1)) < valQ (New 123 0)) ∧
     ((New 123 0 : Decimal).Cmp (New 1235 (-1)) = 0 ↔
        ((New 123 0 : Decimal).Cmp (New 1235 (-1)) ≠ -1 ∧
         (New 123 0 : Decimal).Cmp (New 1235 (-1)) ≠ 1))) :=
  ⟨⟨by decide, by decide⟩, cmp_spec (New 123 0) (New 1235 (-1)) (by decide) (by decide)⟩

/-- C7.  `StringFixedBank(New(1005,-2), 1)`: the value 10.05 lies exactly on
the rounding boundary, the half-away candidate 10.1 has odd coefficient 101,
so banker's rounding adjusts it to the even neighbor (coefficient 100,
exponent -1), rendered as exactly `"10.0"` with the trailing zero kept. -/
theorem stringFixedBank_1005 :
    Decimal.RoundBank (New 1005 (-2)) 1 = ⟨100, -1⟩ ∧
    Decimal.StringFixedBank (New 1005 (-2)) 1 = "10.0" := by
  constructor <;> decide

/-- C8.  Rounding is idempotent: rounding an already-rounded value at the
same number of places changes neither coefficient nor exponent. -/
theorem round_idempotent (v : Decimal) (p : ℤ) (hv : inI32 v.exp)
    (hp1 : -2 ^ 31 < p) (hp2 : p < 2 ^ 31) :
    ((v.Round p).Round p).value = (v.Round p).value ∧
    ((v.Round p).Round p).exp = (v.Round p).exp := by
  have h1 := Round_char v p hv hp1 hp2
  have hexp2 : inI32 (v.Round p).exp := by
    rw [h1.1]
    constructor <;> omega
  have h2 := Round_char (v.Round p) p hexp2 hp1 hp2
  constructor
  · rw [h2.2, valQ_eval, h1.1,
      show ((v.Round p).value : ℚ) * 10 ^ (-p : ℤ) * 10 ^ (p : ℤ) = ((v.Round p).value : ℚ) by
        rw [mul_assoc, ← zpow_add₀ (by norm_num : (10 : ℚ) ≠ 0)]
        norm_num]
    exact rndAway_intCast _
  · rw [h2.1, h1.1]

theorem round_idempotent_witness :
    (inI32 (New 449 (-2) : Decimal).exp ∧ -2 ^ 31 < (0 : ℤ) ∧ (0 : ℤ) < 2 ^ 31) ∧
    (((New 449 (-2) : Decimal).Round 0).Round 0).value = ((New 449 (-2) : Decimal).Round 0).value ∧
    (((New 449 (-2) : Decimal).Round 0).Round 0).exp = ((New 449 (-2) : Decimal).Round 0).exp :=
  ⟨⟨by decide, by decide, by decide⟩,
    round_idempotent (New 449 (-2)) 0 (by decide) (by decide) (by decide)⟩

/-- C10.  Subtracting and adding back compares equal: `Cmp(Add(Sub(a,b),b), a)
= 0`, because `Add` and `Sub` rescale to the minimum exponent, which is
lossless. -/
theorem sub_add_cancel_cmp (a b : Decimal) (ha : inI32 a.exp) (hb : inI32 b.exp) :
    ((a.Sub b).Add b).Cmp a = 0 := by
  have hs32 : inI32 (a.Sub b).exp := by
    rw [Sub_exp]
    exact min32_inI32 ha hb
  have haddexp : inI32 ((a.Sub b).Add b).exp := by
    rw [Add_exp]
    exact min32_inI32 hs32 hb
  apply (Cmp_valQ _ _ haddexp ha).2.1.mpr
  rw [Add_valQ _ _ hs32 hb, Sub_valQ _ _ ha hb]
  ring

theorem sub_add_cancel_cmp_witness :
    (inI32 (New 314 (-2) : Decimal).exp ∧ inI32 (New (-27) 1 : Decimal).exp) ∧
    (((New 314 (-2) : Decimal).Sub (New (-27) 1)).Add (New (-27) 1)).Cmp (New 314 (-2)) = 0 :=
  ⟨⟨by decide, by decide⟩, sub_add_cancel_cmp (New 314 (-2)) (New (-27) 1) (by decide) (by decide)⟩

/-! ## Frame properties of the heap model (immutability of operands) -/

lemma hget_append_lt {h : Heap} {l : List ℤ} {i : ℕ} (hi : i < List.length h) :
    hget (List.append h l) i = hget h i := by
  unfold hget
  rw [List.append_eq]
  exact List.getD_append _ _ _ _ hi

lemma hget_set_ne {h : Heap} {j i : ℕ} {v : ℤ} (hne : j ≠ i) :
    hget (List.set h j v) i = hget h i := by
  unfold hget
  simp [List.getD, List.getElem?_set_ne hne]

lemma extends_refl (h : Heap) : HeapExtends h h := ⟨le_refl _, fun _ _ => rfl⟩

lemma extends_trans {h1 h2 h3 : Heap} (a : HeapExtends h1 h2) (b : HeapExtends h2 h3) :
    HeapExtends h1 h3 :=
  ⟨a.1.trans b.1, fun i hi => (b.2 i (lt_of_lt_of_le hi a.1)).trans (a.2 i hi)⟩

lemma extends_append (h : Heap) (l : List ℤ) : HeapExtends h (List.append h l) := by
  constructor
  · rw [List.append_eq, List.length_append]
    omega
  · intro i hi
    exact hget_append_lt hi

lemma extends_set {h h' : Heap} (he : HeapExtends h h') {j : ℕ} {v : ℤ}
    (hj : List.length h ≤ j) : HeapExtends h (List.set h' j v) := by
  constructor
  · rw [List.length_set]
    exact he.1
  · intro i hi
    rw [hget_set_ne (by omega)]
    exact he.2 i hi

/-- Frame property: `rescale` writes only the freshly allocated copy of the coefficient. -/
lemma rescaleH_frame (h : Heap) (d : DecimalH) (e : ℤ) :
    HeapExtends h (Heap.rescaleH h d e).1 ∧
    (Heap.rescaleH h d e).2.loc = List.length h := by
  refine ⟨?_, rfl⟩
  simp only [Heap.rescaleH]
  split_ifs with h1 h2
  · exact extends_set (extends_trans (extends_append _ _) (extends_append _ _)) (le_refl _)
  · exact extends_set (extends_trans (extends_append _ _) (extends_append _ _)) (le_refl _)
  · exact extends_trans (extends_append _ _) (extends_append _ _)

lemma NewH_frame (h : Heap) (v e : ℤ) :
    HeapExtends h (Heap.NewH h v e).1 ∧ (Heap.NewH h v e).2.loc = List.length h :=
  ⟨extends_append _ _, rfl⟩

lemma AddH_frame (h : Heap) (a b : DecimalH) :
    HeapExtends h (Heap.AddH h a b).1 ∧ List.length h ≤ (Heap.AddH h a b).2.loc := by
  have f1 := rescaleH_frame h a (Decimal.min32 a.exp b.exp)
  have f2 := rescaleH_frame (Heap.rescaleH h a (Decimal.min32 a.exp b.exp)).1 b
    (Decimal.min32 a.exp b.exp)
  exact ⟨extends_trans f1.1 (extends_trans f2.1 (extends_append _ _)),
    le_trans f1.1.1 f2.1.1⟩

lemma SubH_frame (h : Heap) (a b : DecimalH) :
    HeapExtends h (Heap.SubH h a b).1 ∧ List.length h ≤ (Heap.SubH h a b).2.loc := by
  have f1 := rescaleH_frame h a (Decimal.min32 a.exp b.exp)
  have f2 := rescaleH_frame (Heap.rescaleH h a (Decimal.min32 a.exp b.exp)).1 b
    (Decimal.min32 a.exp b.exp)
  exact ⟨extends_trans f1.1 (extends_trans f2.1 (extends_append _ _)),
    le_trans f1.1.1 f2.1.1⟩

lemma MulH_frame (h : Heap) (a b : DecimalH) :
    HeapExtends h (Heap.MulH h a b).1 ∧
    (∀ r, (Heap.MulH h a b).2 = some r → List.length h ≤ r.loc) := by
  simp only [Heap.MulH]
  split_ifs with hcond
  · exact ⟨extends_refl h, fun r hr => absurd hr (by simp)⟩
  · refine ⟨extends_append _ _, ?_⟩
    intro r hr
    simp only [Option.some.injEq] at hr
    subst hr
    exact le_refl _

lemma AbsH_frame (h : Heap) (a : DecimalH) :
    HeapExtends h (Heap.AbsH h a).1 ∧ List.length h ≤ (Heap.AbsH h a).2.loc :=
  ⟨extends_append _ _, le_refl _⟩

lemma CmpH_frame (h : Heap) (a b : DecimalH) : HeapExtends h (Heap.CmpH h a b).1 := by
  simp only [Heap.CmpH]
  split_ifs with hx
  · exact extends_refl h
  · exact extends_trans (rescaleH_frame h a (Decimal.min32 a.exp b.exp)).1
      (rescaleH_frame (Heap.rescaleH h a (Decimal.min32 a.exp b.exp)).1 b
        (Decimal.min32 a.exp b.exp)).1

/-- Frame property: `Round` writes only cells it allocated itself: the rescaled copy and the
fresh remainder cell. -/
lemma RoundH_frame (h : Heap) (d : DecimalH) (p : ℤ) :
    HeapExtends h (Heap.RoundH h d p).1 ∧ List.length h ≤ (Heap.RoundH h d p).2.loc := by
  have f1 := rescaleH_frame h d (i32 (i32 (-p) - 1))
  have hloc : List.length h ≤ (Heap.rescaleH h d (i32 (i32 (-p) - 1))).2.loc :=
    le_of_eq f1.2.symm
  constructor
  · simp only [Heap.RoundH]
    split_ifs <;>
      first
        | exact extends_set (extends_set (extends_trans (extends_set f1.1 hloc)
            (extends_append _ _)) hloc) hloc
        | exact extends_set (extends_trans (extends_set f1.1 hloc)
            (extends_append _ _)) hloc
  · exact hloc

/-- Frame property: `RoundBank` writes only the cell owned by the `Round` candidate, which
`Round` freshly allocated. -/
lemma RoundBankH_frame (h : Heap) (d : DecimalH) (p : ℤ) :
    HeapExtends h (Heap.RoundBankH h d p).1 ∧
    List.length h ≤ (Heap.RoundBankH h d p).2.loc := by
  have f1 := RoundH_frame h d p
  have f2 := SubH_frame (Heap.RoundH h d p).1 d (Heap.RoundH h d p).2
  have f3 := AbsH_frame (Heap.SubH (Heap.RoundH h d p).1 d (Heap.RoundH h d p).2).1
    (Heap.SubH (Heap.RoundH h d p).1 d (Heap.RoundH h d p).2).2
  have f4 := NewH_frame
    (Heap.AbsH (Heap.SubH (Heap.RoundH h d p).1 d (Heap.RoundH h d p).2).1
      (Heap.SubH (Heap.RoundH h d p).1 d (Heap.RoundH h d p).2).2).1
    5 (i32 (i32 (-p) - 1))
  have f5 := CmpH_frame
    (Heap.NewH
      (Heap.AbsH (Heap.SubH (Heap.RoundH h d p).1 d (Heap.RoundH h d p).2).1
        (Heap.SubH (Heap.RoundH h d p).1 d (Heap.RoundH h d p).2).2).1
      5 (i32 (i32 (-p) - 1))).1
    (Heap.AbsH (Heap.SubH (Heap.RoundH h d p).1 d (Heap.RoundH h d p).2).1
      (Heap.SubH (Heap.RoundH h d p).1 d (Heap.RoundH h d p).2).2).2
    (Heap.NewH
      (Heap.AbsH (Heap.SubH (Heap.RoundH h d p).1 d (Heap.RoundH h d p).2).1
        (Heap.SubH (Heap.RoundH h d p).1 d (Heap.RoundH h d p).2).2).1
      5 (i32 (i32 (-p) - 1))).2
  have echain := extends_trans f1.1 (extends_trans f2.1 (extends_trans f3.1
    (extends_trans f4.1 f5)))
  constructor
  · simp only [Heap.RoundBankH]
    split_ifs with hc hneg
    · exact extends_set echain f1.2
    · exact extends_set echain f1.2
    · exact echain
  · exact f1.2

lemma stringH_frame (h : Heap) (d : DecimalH) (b : Bool) :
    HeapExtends h (Heap.stringH h d b).1 := by
  simp only [Heap.stringH]
  split_ifs with hx
  · exact (rescaleH_frame h d 0).1
  · exact extends_append _ _

lemma StringFixedBankH_frame (h : Heap) (d : DecimalH) (p : ℤ) :
    HeapExtends h (Heap.StringFixedBankH h d p).1 :=
  extends_trans (RoundBankH_frame h d p).1
    (stringH_frame (Heap.RoundBankH h d p).1 (Heap.RoundBankH h d p).2 false)

/-- C9.  No public operation mutates a caller-visible operand: every heap cell
that existed before the call holds the same value afterwards (`HeapExtends`),
and every returned `Decimal`'s coefficient cell is freshly allocated (its
location is at or beyond the old heap length, hence aliases no pre-existing
operand cell); in-place mutation happens only on cells the operation itself
allocated. -/
theorem immutability_spec :
    ∀ (h : Heap) (a b : DecimalH) (p e : ℤ),
      (HeapExtends h (Heap.rescaleH h a e).1 ∧
        List.length h ≤ (Heap.rescaleH h a e).2.loc) ∧
      (HeapExtends h (Heap.AddH h a b).1 ∧ List.length h ≤ (Heap.AddH h a b).2.loc) ∧
      (HeapExtends h (Heap.SubH h a b).1 ∧ List.length h ≤ (Heap.SubH h a b).2.loc) ∧
      (HeapExtends h (Heap.MulH h a b).1 ∧
        (∀ r, (Heap.MulH h a b).2 = some r → List.length h ≤ r.loc)) ∧
      (HeapExtends h (Heap.AbsH h a).1 ∧ List.length h ≤ (Heap.AbsH h a).2.loc) ∧
      HeapExtends h (Heap.CmpH h a b).1 ∧
      (HeapExtends h (Heap.RoundH h a p).1 ∧ List.length h ≤ (Heap.RoundH h a p).2.loc) ∧
      (HeapExtends h (Heap.RoundBankH h a p).1 ∧
        List.length h ≤ (Heap.RoundBankH h a p).2.loc) ∧
      HeapExtends h (Heap.StringFixedBankH h a p).1 :=
  fun h a b p e =>
    ⟨⟨(rescaleH_frame h a e).1, le_of_eq (rescaleH_frame h a e).2.symm⟩,
      AddH_frame h a b, SubH_frame h a b, MulH_frame h a b, AbsH_frame h a,
      CmpH_frame h a b, RoundH_frame h a p, RoundBankH_frame h a p,
      StringFixedBankH_frame h a p⟩

theorem immutability_spec_witness :
    (HeapExtends [(7 : ℤ), (-3 : ℤ)] (Heap.rescaleH [(7 : ℤ), (-3 : ℤ)] ⟨0, -1⟩ (-3)).1 ∧
      List.length [(7 : ℤ), (-3 : ℤ)] ≤ (Heap.rescaleH [(7 : ℤ), (-3 : ℤ)] ⟨0, -1⟩ (-3)).2.loc) ∧
    (HeapExtends [(7 : ℤ), (-3 : ℤ)] (Heap.AddH [(7 : ℤ), (-3 : ℤ)] ⟨0, -1⟩ ⟨1, 2⟩).1 ∧
      List.length [(7 : ℤ), (-3 : ℤ)] ≤ (Heap.AddH [(7 : ℤ), (-3 : ℤ)] ⟨0, -1⟩ ⟨1, 2⟩).2.loc) ∧
    (HeapExtends [(7 : ℤ), (-3 : ℤ)] (Heap.SubH [(7 : ℤ), (-3 : ℤ)] ⟨0, -1⟩ ⟨1, 2⟩).1 ∧
      List.length [(7 : ℤ), (-3 : ℤ)] ≤ (Heap.SubH [(7 : ℤ), (-3 : ℤ)] ⟨0, -1⟩ ⟨1, 2⟩).2.loc) ∧
    (HeapExtends [(7 : ℤ), (-3 : ℤ)] (Heap.MulH [(7 : ℤ), (-3 : ℤ)] ⟨0, -1⟩ ⟨1, 2⟩).1 ∧
      (∀ r, (Heap.MulH [(7 : ℤ), (-3 : ℤ)] ⟨0, -1⟩ ⟨1, 2⟩).2 = some r →
        List.length [(7 : ℤ), (-3 : ℤ)] ≤ r.loc)) ∧
    (HeapExtends [(7 : ℤ), (-3 : ℤ)] (Heap.AbsH [(7 : ℤ), (-3 : ℤ)] ⟨0, -1⟩).1 ∧
      List.length [(7 : ℤ), (-3 : ℤ)] ≤ (Heap.AbsH [(7 : ℤ), (-3 : ℤ)] ⟨0, -1⟩).2.loc) ∧
    HeapExtends [(7 : ℤ), (-3 : ℤ)] (Heap.CmpH [(7 : ℤ), (-3 : ℤ)] ⟨0, -1⟩ ⟨1, 2⟩).1 ∧
    (HeapExtends [(7 : ℤ), (-3 : ℤ)] (Heap.RoundH [(7 : ℤ), (-3 : ℤ)] ⟨0, -1⟩ 0).1 ∧
      List.length [(7 : ℤ), (-3 : ℤ)] ≤ (Heap.RoundH [(7 : ℤ), (-3 : ℤ)] ⟨0, -1⟩ 0).2.loc) ∧
    (HeapExtends [(7 : ℤ), (-3 : ℤ)] (Heap.RoundBankH [(7 : ℤ), (-3 : ℤ)] ⟨0, -1⟩ 0).1 ∧
      List.length [(7 : ℤ), (-3 : ℤ)] ≤ (Heap.RoundBankH [(7 : ℤ), (-3 : ℤ)] ⟨0, -1⟩ 0).2.loc) ∧
    HeapExtends [(7 : ℤ), (-3 : ℤ)] (Heap.StringFixedBankH [(7 : ℤ), (-3 : ℤ)] ⟨0, -1⟩ 0).1 :=
  immutability_spec [(7 : ℤ), (-3 : ℤ)] ⟨0, -1⟩ ⟨1, 2⟩ 0 (-3)
